import Mathlib

/-!
Verification of the `ffind` searcher core (`internal/searcher`, surfaced in
`src/cmd/root.go`): the `Search` engine, its `filepath.Walk` traversal with
directory-exclude and extension filters, and the per-file line matcher
`processFile` in literal and regex mode.

Modelling conventions:
* Strings are rune (code point) sequences, `Str := List Char`.  Go's
  `strings.Index`/`strings.Contains` work on bytes, but for well-formed UTF-8
  a byte-level substring occurrence of a well-formed needle is always
  rune-aligned, so rune-level search finds the same occurrences.  The one
  place where the byte/rune distinction is observable — slicing the original
  line with offsets computed on its lowercased copy — is modelled separately
  at the byte level (`highlightBytes` below).
* `strings.ToLower` maps runes through Unicode's simple lowercase mapping
  one by one.  `goToLowerRune` restricts that mapping to ASCII plus the
  handful of non-ASCII code points exercised here (everything else is left
  fixed); all general theorems below use only its rune-by-rune shape, never
  table entries outside this fragment.
* The `regexp` package is abstracted as `RegexpLib`: `compile` returns the
  `FindAllStringIndex` behaviour of the compiled pattern (`FindStringIndex`
  is its head, which is how the two functions relate in Go), or `none` for
  an invalid pattern.
* Concurrency: each worker owns one file end to end, and the shared counters
  are only ever incremented under the mutex, so a schedule is modelled as a
  partition of the walked file list among workers; wall-clock duration and
  the colour output sink are not modelled, only the span/segment structure
  each emit would receive.
-/

namespace FFind

/-- Rune-level strings. -/
abbrev Str := List Char

/-- Unicode simple lowercase mapping (what Go's `unicode.ToLower` applies to
each rune), restricted to ASCII `A`-`Z` plus the non-ASCII code points used
in this development (`İ`, Kelvin sign, `Ⱥ`, `Ⱦ`); other runes are left
unchanged. -/
def goToLowerRune (c : Nat) : Nat :=
  if 65 ≤ c ∧ c ≤ 90 then c + 32
  else if c = 0x130 then 0x69
  else if c = 0x212A then 0x6B
  else if c = 0x23A then 0x2C65
  else if c = 0x23E then 0x2C66
  else c

/-- `strings.ToLower` on one rune, at `Char` level. -/
def goToLowerChar (c : Char) : Char := Char.ofNat (goToLowerRune c.toNat)

/-- `strings.ToLower`: rune-by-rune lowercasing. -/
def goToLowerStr (s : Str) : Str := s.map goToLowerChar

/-- `startsWith pat s` holds when `pat` is an initial segment of `s`. -/
def startsWith {α : Type} [DecidableEq α] : List α → List α → Bool
  | [], _ => true
  | _ :: _, [] => false
  | a :: ps, b :: s => if a = b then startsWith ps s else false

/-- `strings.Index`: offset of the leftmost occurrence of `pat` in `s`
(`none` models Go's `-1`). -/
def strIndex {α : Type} [DecidableEq α] : List α → List α → Option Nat
  | [], pat => if startsWith pat [] then some 0 else none
  | b :: s, pat =>
      if startsWith pat (b :: s) then some 0
      else (strIndex s pat).map (fun i => i + 1)

/-- `strings.Contains`. -/
def strContains {α : Type} [DecidableEq α] (s pat : List α) : Bool :=
  (strIndex s pat).isSome

/-- `filepath.Ext` of a base name: the suffix starting at the final dot,
empty when there is no dot. -/
def goExt : Str → Str
  | [] => []
  | c :: rest =>
      let r := goExt rest
      if r ≠ [] then r else if c = '.' then c :: rest else []

/-- `searcher.Config` (src/cmd/root.go lines 144-152). -/
structure Config where
  keyword : Str
  ignoreCase : Bool
  exts : List Str
  excludeDirs : List Str
  workers : Int
  regexp : Bool

/-- Worker-count normalisation at the top of `Search` (lines 157-159):
a non-positive count becomes the default 4. -/
def normWorkers (w : Int) : Int := if w ≤ 0 then 4 else w

/-- A regular-file entry as the walk and the scanner see it: base name,
`info.Mode().IsRegular()`, whether `os.Open` succeeds, and the lines
`bufio.Scanner` would yield. -/
structure FileNode where
  name : Str
  regular : Bool
  openable : Bool
  lines : List Str
deriving DecidableEq

mutual
/-- A filesystem subtree as `filepath.Walk` visits it.  `broken` is an entry
whose `lstat` fails: the walk callback receives a non-nil error for it and
returns nil (line 188-190), skipping it.  A `dir` carries its base name,
whether `readDirNames` succeeds, and its children. -/
inductive FsTree where
  | file : FileNode → FsTree
  | broken : FsTree
  | dir : Str → Bool → FsForest → FsTree

/-- Children of a directory, in traversal order. -/
inductive FsForest where
  | nil : FsForest
  | cons : FsTree → FsForest → FsForest
end

def FsTree.isDir : FsTree → Bool
  | .dir _ _ _ => true
  | _ => false

/-- The only non-nil `error` value the walk callback ever returns is
`filepath.SkipDir` (line 197); there is no `return err` anywhere in it, so
this type has a single constructor. -/
inductive WalkErr where
  | skipDir : WalkErr
deriving DecidableEq

/-- Extension allow-list test (lines 204-216): the lowercased
`filepath.Ext` must equal `"." + strings.ToLower(e)` for some entry `e`. -/
def extAllowed (cfg : Config) (name : Str) : Bool :=
  cfg.exts.any (fun e => decide (goToLowerStr (goExt name) = '.' :: goToLowerStr e))

/-- The walk callback on a non-directory entry (lines 203-222): extension
filter first, then push iff the file is regular. -/
def walkFnFile (cfg : Config) (f : FileNode) : List FileNode :=
  if 0 < cfg.exts.length ∧ extAllowed cfg f.name = false then []
  else if f.regular then [f] else []

mutual
/-- `filepath.Walk`'s recursive `walk` specialised to the callback in
`Search` (lines 187-223), collecting the paths pushed to `fileChan`.  Each
pushed file is paired with the base names of the directories above it.
A directory whose listing fails is skipped (callback returns nil on the
error); a directory whose base name is in the exclude list makes the
callback return `SkipDir`, pruning the subtree. -/
def goWalk (cfg : Config) (dirs : List Str) :
    FsTree → List (List Str × FileNode) × Option WalkErr
  | .broken => ([], none)
  | .file f => ((walkFnFile cfg f).map (fun x => (dirs, x)), none)
  | .dir name listable cs =>
      if listable = false then ([], none)
      else if name ∈ cfg.excludeDirs then ([], some WalkErr.skipDir)
      else goWalkForest cfg (dirs ++ [name]) cs

/-- The child loop of `walk`: a `SkipDir` bubbling out of a directory child
is swallowed and traversal continues with the next sibling (that is the only
non-nil error a child can produce; file and broken children always yield
nil). -/
def goWalkForest (cfg : Config) (dirs : List Str) :
    FsForest → List (List Str × FileNode) × Option WalkErr
  | .nil => ([], none)
  | .cons t ts =>
      let r := goWalk cfg dirs t
      match r.2 with
      | some e =>
          if t.isDir then
            let rest := goWalkForest cfg dirs ts
            (r.1 ++ rest.1, rest.2)
          else (r.1, some e)
      | none =>
          let rest := goWalkForest cfg dirs ts
          (r.1 ++ rest.1, rest.2)
end

/-- Top-level `filepath.Walk`: a `SkipDir` escaping from the root is
converted to nil. -/
def goWalkTop (cfg : Config) (root : FsTree) :
    List (List Str × FileNode) × Option WalkErr :=
  let r := goWalk cfg [] root
  match r.2 with
  | some WalkErr.skipDir => (r.1, none)
  | none => (r.1, none)

/-- The files pushed to `fileChan` during one search, in walk order. -/
def walkedFiles (cfg : Config) (root : FsTree) : List FileNode :=
  (goWalkTop cfg root).1.map Prod.snd

/-- Model of the `regexp` standard library.  `compile` yields the
`FindAllStringIndex` behaviour of the compiled pattern — the list of
non-overlapping match spans on a line, leftmost first — or `none` for an
invalid pattern.  `FindStringIndex` is the head of that list, which is how
the two functions relate for a Go regexp. -/
structure RegexpLib where
  compile : Str → Option (Str → List (Nat × Nat))

/-- The pattern string handed to `regexp.Compile` (lines 250-253):
the keyword, with `"(?i)"` prepended when `ignoreCase` is set. -/
def regexPattern (cfg : Config) : Str :=
  if cfg.ignoreCase then '(' :: '?' :: 'i' :: ')' :: cfg.keyword else cfg.keyword

/-- Matches counted on one line in regex mode (lines 272-288): skip unless
`FindStringIndex` is non-nil and `FindAllStringIndex` is non-empty, then
count every span. -/
def regexLineCount (m : Str → List (Nat × Nat)) (line : Str) : Nat :=
  match (m line).head? with
  | none => 0
  | some _ => (m line).length

/-- Matches counted on one line in literal mode (lines 312-329): lowercase
line and keyword when `ignoreCase`, then `strings.Contains`; a matching line
counts exactly 1 (`*matchCount++`). -/
def literalLineCount (cfg : Config) (line : Str) : Nat :=
  let searchLine := if cfg.ignoreCase then goToLowerStr line else line
  let searchKeyword := if cfg.ignoreCase then goToLowerStr cfg.keyword else cfg.keyword
  if strContains searchLine searchKeyword then 1 else 0

/-- The per-line scanning loop of `processFile`: the running state is the
matches contributed so far and the `fileMatched` flag; a line with `g line`
matches adds them and sets the flag, a line with none is skipped. -/
def scanFold (g : Str → Nat) : Nat × Bool → List Str → Nat × Bool
  | st, [] => st
  | st, l :: ls =>
      let k := g l
      if k = 0 then scanFold g st ls
      else scanFold g (st.1 + k, true) ls

/-- The highlight loop of literal mode (lines 334-347) at rune level:
search the lowercased line for the lowercased keyword from cursor `start`,
record the span `[absIdx, absIdx + len(cfg.Keyword))` against the original
line, advance the cursor past it, repeat.  The loop is modelled with fuel;
`none` means the fuel ran out (the Go loop would still be running). -/
def literalSpansAux (lowerLine lowerKeyword : Str) (kwLen : Nat) (start : Nat) :
    Nat → Option (List (Nat × Nat))
  | 0 => none
  | fuel + 1 =>
      match strIndex (lowerLine.drop start) lowerKeyword with
      | none => some []
      | some idx =>
          let absIdx := start + idx
          (literalSpansAux lowerLine lowerKeyword kwLen (absIdx + kwLen) fuel).map
            (fun rest => (absIdx, absIdx + kwLen) :: rest)

/-- The spans the literal-mode highlight loop emits for one line. -/
def literalSpans (line keyword : Str) : List (Nat × Nat) :=
  (literalSpansAux (goToLowerStr line) (goToLowerStr keyword) keyword.length 0
    (line.length + 1)).getD []

/-- Literal-mode per-line behaviour of `processFile` (lines 310-353):
`none` when the `strings.Contains` gate rejects the line, otherwise the
highlight spans emitted for it. -/
def literalLineSpans (cfg : Config) (line : Str) : Option (List (Nat × Nat)) :=
  let searchLine := if cfg.ignoreCase then goToLowerStr line else line
  let searchKeyword := if cfg.ignoreCase then goToLowerStr cfg.keyword else cfg.keyword
  if strContains searchLine searchKeyword then some (literalSpans line cfg.keyword)
  else none

/-- `processFile` (lines 237-355), as the pair it folds into the shared
counters: matches added to `matchCount` and the 0/1 added to `fileCount`.
An unopenable file contributes nothing; in regex mode an invalid pattern
makes the whole file contribute nothing. -/
def processFile (lib : RegexpLib) (cfg : Config) (f : FileNode) : Nat × Nat :=
  if f.openable = false then (0, 0)
  else if cfg.regexp then
    match lib.compile (regexPattern cfg) with
    | none => (0, 0)
    | some m =>
        let st := scanFold (regexLineCount m) (0, false) f.lines
        (st.1, if st.2 then 1 else 0)
  else
    let st := scanFold (literalLineCount cfg) (0, false) f.lines
    (st.1, if st.2 then 1 else 0)

/-- `processFile` stopped after the first `k` lines of the file (the shared
counters as they stand mid-file, since both are updated under the mutex
line by line). -/
def processFilePrefix (lib : RegexpLib) (cfg : Config) (f : FileNode) (k : Nat) :
    Nat × Nat :=
  if f.openable = false then (0, 0)
  else if cfg.regexp then
    match lib.compile (regexPattern cfg) with
    | none => (0, 0)
    | some m =>
        let st := scanFold (regexLineCount m) (0, false) (f.lines.take k)
        (st.1, if st.2 then 1 else 0)
  else
    let st := scanFold (literalLineCount cfg) (0, false) (f.lines.take k)
    (st.1, if st.2 then 1 else 0)

/-- The worker loop's accumulation into the shared totals: one file after
another, adding each file's contribution. -/
def processAll (lib : RegexpLib) (cfg : Config) (files : List FileNode) : Nat × Nat :=
  files.foldl
    (fun acc f =>
      let r := processFile lib cfg f
      (acc.1 + r.1, acc.2 + r.2))
    (0, 0)

/-- The shared totals at an arbitrary moment of a concurrent run: each file
is at some line prefix (files not yet begun at 0, finished files past their
length), and the totals are the sum of the per-file partial states. -/
def midSearchTotals (lib : RegexpLib) (cfg : Config) (files : List FileNode)
    (cuts : List Nat) : Nat × Nat :=
  (List.zipWith (processFilePrefix lib cfg) files cuts).foldl
    (fun a b => (a.1 + b.1, a.2 + b.2)) (0, 0)

/-- Totals produced by a pool of workers, one list of files per worker. -/
def workerTotals (lib : RegexpLib) (cfg : Config) (parts : List (List FileNode)) :
    Nat × Nat :=
  (parts.map (processAll lib cfg)).foldl (fun a b => (a.1 + b.1, a.2 + b.2)) (0, 0)

/-- `searcher.Search` (lines 154-234): walk the tree collecting candidate
files, process them, and return `(matchCount, fileCount, err)` where `err`
is whatever `filepath.Walk` returned (with zeroed counts when it is
non-nil).  Duration is not modelled. -/
def Search (lib : RegexpLib) (cfg : Config) (root : FsTree) :
    Nat × Nat × Option WalkErr :=
  let walked := goWalkTop cfg root
  let totals := processAll lib cfg (walked.1.map Prod.snd)
  match walked.2 with
  | some e => (0, 0, some e)
  | none => (totals.1, totals.2, none)

/-- Modelled from the spec: "Finds all non-overlapping occurrences
left-to-right, advancing the search cursor to the end of each found
occurrence (no overlapping matches counted)."  Occurrences of `pat` in
`text`, as `(start, end)` offsets, with the same fuel discipline as the
code's loop so the two can be compared. -/
def specOccsAux (text pat : Str) (cursor : Nat) : Nat → Option (List (Nat × Nat))
  | 0 => none
  | fuel + 1 =>
      match strIndex (text.drop cursor) pat with
      | none => some []
      | some i =>
          (specOccsAux text pat (cursor + i + pat.length) fuel).map
            (fun rest => (cursor + i, cursor + i + pat.length) :: rest)

/-- Modelled from the spec: the list of non-overlapping left-to-right
occurrences of `pat` in `text`. -/
def specOccurrences (text pat : Str) : List (Nat × Nat) :=
  (specOccsAux text pat 0 (text.length + 1)).getD []

/-! ## Byte-level model of the literal highlight loop

Lines 334-349 compute byte offsets on `strings.ToLower(line)` and use them
to slice the *original* `line`.  Go slicing panics when an offset exceeds
the string's byte length, and `ToLower` does not preserve byte length for
every rune, so this fragment is modelled at the byte level. -/

/-- Bytes of the UTF-8 encoding of one code point. -/
def utf8Encode (c : Nat) : List Nat :=
  if c < 0x80 then [c]
  else if c < 0x800 then [0xC0 + c / 64, 0x80 + c % 64]
  else if c < 0x10000 then
    [0xE0 + c / 4096, 0x80 + c / 64 % 64, 0x80 + c % 64]
  else
    [0xF0 + c / 262144, 0x80 + c / 4096 % 64, 0x80 + c / 64 % 64, 0x80 + c % 64]

/-- UTF-8 bytes of a rune sequence. -/
def encodeRunes (rs : List Nat) : List Nat := (rs.map utf8Encode).flatten

/-- Bytes of `strings.ToLower` applied to a (well-formed) rune sequence:
each rune is mapped through the simple lowercase mapping and re-encoded. -/
def goToLowerBytes (rs : List Nat) : List Nat :=
  (rs.map (fun r => utf8Encode (goToLowerRune r))).flatten

/-- Go slicing `s[i:j]`: defined only when `i ≤ j ≤ len(s)`; `none` is the
out-of-range panic. -/
def goSlice (s : List Nat) (i j : Nat) : Option (List Nat) :=
  if i ≤ j ∧ j ≤ s.length then some ((s.drop i).take (j - i)) else none

/-- Result of running the highlight loop at byte level: it either panics on
an out-of-range slice, runs out of fuel, or finishes with the emitted
`(segment, highlighted)` pairs. -/
inductive HlRes where
  | oob : HlRes
  | noFuel : HlRes
  | finished : List (List Nat × Bool) → HlRes
deriving DecidableEq

/-- The literal highlight loop (lines 334-349) on bytes: find
`lowerKeyword` in `lowerLine[start:]`, print `line[start:absIdx]`,
highlight `line[absIdx:absIdx+len(cfg.Keyword)]`, advance; after the loop,
print `line[start:]` when `start < len(line)`.  Every slice is
bounds-checked as Go does. -/
def highlightBytesAux (line lowerLine lowerKeyword : List Nat) (kwLen : Nat)
    (start : Nat) : Nat → HlRes
  | 0 => HlRes.noFuel
  | fuel + 1 =>
      match goSlice lowerLine start lowerLine.length with
      | none => HlRes.oob
      | some tail =>
          match strIndex tail lowerKeyword with
          | none =>
              if start < line.length then
                match goSlice line start line.length with
                | none => HlRes.oob
                | some rest => HlRes.finished [(rest, false)]
              else HlRes.finished []
          | some idx =>
              let absIdx := start + idx
              match goSlice line start absIdx with
              | none => HlRes.oob
              | some pre =>
                  match goSlice line absIdx (absIdx + kwLen) with
                  | none => HlRes.oob
                  | some hit =>
                      match highlightBytesAux line lowerLine lowerKeyword kwLen
                          (absIdx + kwLen) fuel with
                      | HlRes.finished segs =>
                          HlRes.finished ((pre, false) :: (hit, true) :: segs)
                      | r => r

/-- The byte-level highlight of one line, for a line and keyword given as
rune sequences: `lowerLine`/`lowerKeyword` are their `ToLower` bytes and
`kwLen` is `len(cfg.Keyword)` in bytes, exactly the values the Go code
computes. -/
def highlightBytes (lineRunes keywordRunes : List Nat) : HlRes :=
  highlightBytesAux (encodeRunes lineRunes) (goToLowerBytes lineRunes)
    (goToLowerBytes keywordRunes) (encodeRunes keywordRunes).length 0
    ((encodeRunes lineRunes).length + 1)

/-! ## Supporting lemmas -/

theorem startsWith_length_le {α : Type} [DecidableEq α] :
    ∀ p s : List α, startsWith p s = true → p.length ≤ s.length := by
  intro p
  induction p with
  | nil => intro s _; exact Nat.zero_le _
  | cons a ps ih =>
      intro s h
      cases s with
      | nil => simp [startsWith] at h
      | cons b t =>
          simp only [startsWith] at h
          by_cases hab : a = b
          · simp [hab] at h
            simpa [List.length_cons] using Nat.succ_le_succ (ih t h)
          · simp [hab] at h

theorem startsWith_take {α : Type} [DecidableEq α] :
    ∀ p s : List α, startsWith p s = true → s.take p.length = p := by
  intro p
  induction p with
  | nil => intro s _; rfl
  | cons a ps ih =>
      intro s h
      cases s with
      | nil => simp [startsWith] at h
      | cons b t =>
          simp only [startsWith] at h
          by_cases hab : a = b
          · simp only [hab, if_pos rfl] at h
            simp [List.take, hab, ih t h]
          · simp [hab] at h

theorem strIndex_le {α : Type} [DecidableEq α] :
    ∀ (s pat : List α) (i : Nat), strIndex s pat = some i → i ≤ s.length := by
  intro s
  induction s with
  | nil =>
      intro pat i h
      simp only [strIndex] at h
      by_cases hp : startsWith pat ([] : List α) = true
      · simp [hp] at h; omega
      · simp [hp] at h
  | cons b t ih =>
      intro pat i h
      simp only [strIndex] at h
      by_cases hp : startsWith pat (b :: t) = true
      · simp [hp] at h; omega
      · simp only [hp, if_neg, Bool.false_eq_true, if_false] at h
        cases hrec : strIndex t pat with
        | none => simp [hrec] at h
        | some j =>
            simp [hrec] at h
            have := ih pat j hrec
            simp [List.length_cons]
            omega

theorem strIndex_startsWith {α : Type} [DecidableEq α] :
    ∀ (s pat : List α) (i : Nat), strIndex s pat = some i →
      startsWith pat (s.drop i) = true := by
  intro s
  induction s with
  | nil =>
      intro pat i h
      simp only [strIndex] at h
      by_cases hp : startsWith pat ([] : List α) = true
      · simp [hp] at h; subst h; simpa using hp
      · simp [hp] at h
  | cons b t ih =>
      intro pat i h
      simp only [strIndex] at h
      by_cases hp : startsWith pat (b :: t) = true
      · simp [hp] at h; subst h; simpa using hp
      · simp only [hp, if_neg, Bool.false_eq_true, if_false] at h
        cases hrec : strIndex t pat with
        | none => simp [hrec] at h
        | some j =>
            simp [hrec] at h
            subst h
            simpa [List.drop] using ih pat j hrec

theorem strIndex_span_le {α : Type} [DecidableEq α] (s pat : List α) (i : Nat)
    (h : strIndex s pat = some i) : i + pat.length ≤ s.length := by
  have h1 := strIndex_le s pat i h
  have h2 := startsWith_length_le pat (s.drop i) (strIndex_startsWith s pat i h)
  rw [List.length_drop] at h2
  omega

theorem strIndex_nil_of_ne {α : Type} [DecidableEq α] (pat : List α)
    (h : pat ≠ []) : strIndex ([] : List α) pat = none := by
  cases pat with
  | nil => exact absurd rfl h
  | cons a ps => simp [strIndex, startsWith]

/-- Each successful search in the highlight loop moves the cursor past the
end of the found occurrence, which stays within the lowered line; with a
non-empty keyword, fuel covering the line length therefore suffices. -/
theorem literalSpansAux_total (lowerLine lowerKeyword : Str) (kwLen : Nat)
    (hk : lowerKeyword ≠ []) (hlen : kwLen = lowerKeyword.length) :
    ∀ (fuel start : Nat), 1 ≤ fuel → lowerLine.length + 1 ≤ fuel + start →
      (literalSpansAux lowerLine lowerKeyword kwLen start fuel).isSome = true := by
  intro fuel
  induction fuel with
  | zero => intro start h1 _; omega
  | succ n ih =>
      intro start _ hcov
      simp only [literalSpansAux]
      cases hidx : strIndex (lowerLine.drop start) lowerKeyword with
      | none => simp
      | some idx =>
          have hstart : start ≤ lowerLine.length := by
            by_contra hgt
            have hdrop : lowerLine.drop start = [] := List.drop_eq_nil_of_le (by omega)
            rw [hdrop, strIndex_nil_of_ne lowerKeyword hk] at hidx
            exact Option.noConfusion hidx
          have hspan := strIndex_span_le (lowerLine.drop start) lowerKeyword idx hidx
          rw [List.length_drop] at hspan
          have hkpos : 1 ≤ lowerKeyword.length :=
            Nat.one_le_iff_ne_zero.mpr (fun h0 => hk (List.eq_nil_of_length_eq_zero h0))
          have hrec := ih (start + idx + kwLen) (by omega) (by omega)
          rcases Option.isSome_iff_exists.mp hrec with ⟨v, hv⟩
          simp [hv]

/-- The code's highlight loop computes exactly the spec's "all
non-overlapping occurrences left-to-right" recursion, provided the span
width it uses — the byte length of the *original* keyword — agrees with the
length of the lowered keyword it searches for (true at rune level, where
lowercasing is length-preserving). -/
theorem literalSpansAux_eq_specOccsAux (text pat : Str) (kwLen : Nat)
    (hlen : kwLen = pat.length) :
    ∀ (fuel start : Nat),
      literalSpansAux text pat kwLen start fuel = specOccsAux text pat start fuel := by
  subst hlen
  intro fuel
  induction fuel with
  | zero => intro start; rfl
  | succ n ih =>
      intro start
      simp only [literalSpansAux, specOccsAux]
      cases hidx : strIndex (text.drop start) pat with
      | none => rfl
      | some idx => simp [ih]

/-- Every span the highlight loop reports is an occurrence of the (lowered)
keyword in the (lowered) line: it has the keyword's width, ends within the
line, and the text under it equals the keyword. -/
theorem literalSpansAux_sound (text pat : Str) (kwLen : Nat)
    (hlen : kwLen = pat.length) (hne : pat ≠ []) :
    ∀ (fuel start : Nat) (spans : List (Nat × Nat)),
      literalSpansAux text pat kwLen start fuel = some spans →
      ∀ se ∈ spans, se.2 = se.1 + kwLen ∧ se.2 ≤ text.length ∧
        (text.drop se.1).take kwLen = pat := by
  intro fuel
  induction fuel with
  | zero => intro start spans h; exact absurd h (by simp [literalSpansAux])
  | succ n ih =>
      intro start spans h se hse
      cases hidx : strIndex (text.drop start) pat with
      | none =>
          simp only [literalSpansAux, hidx, Option.some.injEq] at h
          subst h
          exact absurd hse (List.not_mem_nil se)
      | some idx =>
          simp only [literalSpansAux, hidx] at h
          cases hrec : literalSpansAux text pat kwLen (start + idx + kwLen) n with
          | none => rw [hrec] at h; exact absurd h (by simp)
          | some rest =>
              rw [hrec] at h
              simp only [Option.map_some', Option.some.injEq] at h
              subst h
              have hsw := strIndex_startsWith (text.drop start) pat idx hidx
              rw [List.drop_drop] at hsw
              have hspan := strIndex_span_le (text.drop start) pat idx hidx
              rw [List.length_drop] at hspan
              rcases List.mem_cons.mp hse with hse | hse
              · subst hse
                refine ⟨rfl, ?_, ?_⟩
                · have hstart : start ≤ text.length := by
                    by_contra hgt
                    have hdrop : text.drop start = [] := List.drop_eq_nil_of_le (by omega)
                    rw [hdrop, strIndex_nil_of_ne pat hne] at hidx
                    exact Option.noConfusion hidx
                  simp only
                  omega
                · simp only [hlen]
                  exact startsWith_take pat (text.drop (start + idx)) hsw
              · exact ih (start + idx + kwLen) rest hrec se hse

/-- The scan loop preserves "the fileCount flag contributes at most as much
as the matches seen": a counted line adds at least one match and flips the
flag at most from 0 to 1. -/
theorem scanFold_inv (g : Str → Nat) :
    ∀ (lines : List Str) (st : Nat × Bool),
      (if st.2 then 1 else 0) ≤ st.1 →
      (if (scanFold g st lines).2 then 1 else 0) ≤ (scanFold g st lines).1 := by
  intro lines
  induction lines with
  | nil => intro st h; exact h
  | cons l ls ih =>
      intro st h
      simp only [scanFold]
      by_cases hk : g l = 0
      · simp only [hk, if_pos rfl]
        exact ih st h
      · simp only [if_neg hk]
        exact ih (st.1 + g l, true) (by simp; omega)

/-- A one-line scan step adds exactly `g line` to the match counter. -/
theorem scanFold_single (g : Str → Nat) (st : Nat × Bool) (l : Str) :
    (scanFold g st [l]).1 = st.1 + g l := by
  simp only [scanFold]
  by_cases hk : g l = 0
  · simp [hk]
  · simp [hk]

/-- Mid-file totals never violate fileAdd ≤ matchAdd. -/
theorem processFilePrefix_le (lib : RegexpLib) (cfg : Config) (f : FileNode) (k : Nat) :
    (processFilePrefix lib cfg f k).2 ≤ (processFilePrefix lib cfg f k).1 := by
  unfold processFilePrefix
  by_cases ho : f.openable = false
  · simp [ho]
  · simp only [ho, if_neg, Bool.false_eq_true, if_false]
    by_cases hr : cfg.regexp
    · simp only [hr, if_pos rfl]
      cases hc : lib.compile (regexPattern cfg) with
      | none => simp
      | some m =>
          simpa using scanFold_inv (regexLineCount m) (f.lines.take k) (0, false) (by simp)

    · simp only [hr, if_neg, if_false]
      simpa using scanFold_inv (literalLineCount cfg) (f.lines.take k) (0, false) (by simp)

/-- Whole-file totals never violate fileAdd ≤ matchAdd. -/
theorem processFile_le (lib : RegexpLib) (cfg : Config) (f : FileNode) :
    (processFile lib cfg f).2 ≤ (processFile lib cfg f).1 := by
  have h : processFile lib cfg f = processFilePrefix lib cfg f f.lines.length := by
    unfold processFile processFilePrefix
    rw [List.take_length]
  rw [h]
  exact processFilePrefix_le lib cfg f f.lines.length

/-- Folding pairwise sums preserves the componentwise inequality. -/
theorem foldlPair_le :
    ∀ (l : List (Nat × Nat)) (init : Nat × Nat),
      (∀ x ∈ l, x.2 ≤ x.1) → init.2 ≤ init.1 →
      (l.foldl (fun a b => (a.1 + b.1, a.2 + b.2)) init).2 ≤
        (l.foldl (fun a b => (a.1 + b.1, a.2 + b.2)) init).1 := by
  intro l
  induction l with
  | nil => intro init _ h; exact h
  | cons x xs ih =>
      intro init hall h
      simp only [List.foldl_cons]
      exact ih (init.1 + x.1, init.2 + x.2)
        (fun y hy => hall y (List.mem_cons_of_mem x hy))
        (Nat.add_le_add h (hall x (List.mem_cons_self x xs)))

/-- The pairwise fold is summation in the product monoid. -/
theorem foldlPair_eq_sum :
    ∀ (l : List (Nat × Nat)) (init : Nat × Nat),
      l.foldl (fun a b => (a.1 + b.1, a.2 + b.2)) init = init + l.sum := by
  intro l
  induction l with
  | nil => intro init; simp
  | cons x xs ih =>
      intro init
      simp only [List.foldl_cons, List.sum_cons, ih]
      rw [Prod.ext_iff]
      constructor
      · simp [Prod.fst_add]; ring
      · simp [Prod.snd_add]; ring

/-- The worker accumulation is the sum of the per-file contributions. -/
theorem processAll_eq_sum (lib : RegexpLib) (cfg : Config) (files : List FileNode) :
    processAll lib cfg files = (files.map (processFile lib cfg)).sum := by
  unfold processAll
  rw [← List.foldl_map (processFile lib cfg)
    (fun a b => (a.1 + b.1, a.2 + b.2)) files (0, 0)]
  rw [foldlPair_eq_sum]
  simp

/-- `filepath.Walk` always hands `Search` a nil error: the callback's only
non-nil return value is `SkipDir`, which `Walk` converts to nil at the
top. -/
theorem goWalkTop_err (cfg : Config) (root : FsTree) :
    (goWalkTop cfg root).2 = none := by
  unfold goWalkTop
  cases h : (goWalk cfg [] root).2 with
  | none => simp [h]
  | some e => cases e; simp [h]

/-- The counts `Search` returns are the sequential accumulation over the
walked files. -/
theorem search_counts (lib : RegexpLib) (cfg : Config) (root : FsTree) :
    Search lib cfg root =
      ((processAll lib cfg (walkedFiles cfg root)).1,
       (processAll lib cfg (walkedFiles cfg root)).2, none) := by
  unfold Search walkedFiles
  have h := goWalkTop_err cfg root
  cases hw : (goWalkTop cfg root) with
  | mk files e =>
      rw [hw] at h
      simp at h
      subst h
      simp

mutual
/-- No collected file's directory path mentions an excluded name, provided
the path accumulated so far is clean: the walk only ever descends into a
directory after the exclude test has rejected pruning it. -/
theorem goWalk_paths (cfg : Config) (dirs : List Str) (t : FsTree)
    (hd : ∀ d ∈ dirs, d ∉ cfg.excludeDirs) :
    ∀ pf ∈ (goWalk cfg dirs t).1, ∀ d ∈ pf.1, d ∉ cfg.excludeDirs :=
  match t with
  | .broken => by intro pf hpf; exact absurd hpf (by simp [goWalk])
  | .file f => by
      intro pf hpf d hdmem
      simp only [goWalk, List.mem_map] at hpf
      rcases hpf with ⟨x, _, hx⟩
      rw [← hx] at hdmem
      exact hd d hdmem
  | .dir name listable cs => by
      intro pf hpf d hdmem
      simp only [goWalk] at hpf
      by_cases hl : listable = false
      · rw [if_pos hl] at hpf
        exact absurd hpf (by simp)
      · rw [if_neg hl] at hpf
        by_cases hx : name ∈ cfg.excludeDirs
        · rw [if_pos hx] at hpf
          exact absurd hpf (by simp)
        · rw [if_neg hx] at hpf
          have hd2 : ∀ d ∈ dirs ++ [name], d ∉ cfg.excludeDirs := by
            intro d hdm
            rcases List.mem_append.mp hdm with hdm | hdm
            · exact hd d hdm
            · rw [List.mem_singleton.mp hdm]; exact hx
          exact goWalkForest_paths cfg (dirs ++ [name]) cs hd2 pf hpf d hdmem

/-- Forest version of `goWalk_paths`. -/
theorem goWalkForest_paths (cfg : Config) (dirs : List Str) (fs : FsForest)
    (hd : ∀ d ∈ dirs, d ∉ cfg.excludeDirs) :
    ∀ pf ∈ (goWalkForest cfg dirs fs).1, ∀ d ∈ pf.1, d ∉ cfg.excludeDirs :=
  match fs with
  | .nil => by intro pf hpf; exact absurd hpf (by simp [goWalkForest])
  | .cons t ts => by
      intro pf hpf d hdmem
      simp only [goWalkForest] at hpf
      cases hr : (goWalk cfg dirs t).2 with
      | some e =>
          rw [hr] at hpf
          by_cases hdir : t.isDir
          · simp only [hdir, if_pos rfl] at hpf
            rcases List.mem_append.mp hpf with hpf | hpf
            · exact goWalk_paths cfg dirs t hd pf hpf d hdmem
            · exact goWalkForest_paths cfg dirs ts hd pf hpf d hdmem
          · simp only [hdir] at hpf
            simp at hpf
            exact goWalk_paths cfg dirs t hd pf hpf d hdmem
      | none =>
          rw [hr] at hpf
          rcases List.mem_append.mp hpf with hpf | hpf
          · exact goWalk_paths cfg dirs t hd pf hpf d hdmem
          · exact goWalkForest_paths cfg dirs ts hd pf hpf d hdmem
end

/-- A guarded `some` can only equal `some y` when the guard held and the
payloads agree. -/
theorem ifSome_inj {α : Type} {c : Prop} [Decidable c] {x y : α}
    (h : (if c then some x else none) = some y) : x = y := by
  split at h
  · exact Option.some.inj h
  · exact absurd h (by simp)

/-- Folding from `(0,0)` is plain summation. -/
theorem foldlPair_zero (l : List (Nat × Nat)) :
    l.foldl (fun a b => (a.1 + b.1, a.2 + b.2)) (0, 0) = l.sum := by
  rw [foldlPair_eq_sum, Prod.ext_iff]
  constructor <;> simp

/-- Summation of pairs preserves the componentwise inequality. -/
theorem pairSum_le (l : List (Nat × Nat)) (h : ∀ x ∈ l, x.2 ≤ x.1) :
    l.sum.2 ≤ l.sum.1 := by
  have h0 := foldlPair_le l (0, 0) h (Nat.le_refl 0)
  rw [foldlPair_eq_sum] at h0
  simpa using h0

/-- Every entry of the mid-search zip obeys fileAdd ≤ matchAdd. -/
theorem zipWith_prefix_le (lib : RegexpLib) (cfg : Config) :
    ∀ (files : List FileNode) (cuts : List Nat) x,
      x ∈ List.zipWith (processFilePrefix lib cfg) files cuts → x.2 ≤ x.1 := by
  intro files
  induction files with
  | nil => intro cuts x hx; simp at hx
  | cons f fs ih =>
      intro cuts x hx
      cases cuts with
      | nil => simp at hx
      | cons k ks =>
          simp only [List.zipWith_cons_cons] at hx
          rcases List.mem_cons.mp hx with hx | hx
          · rw [hx]; exact processFilePrefix_le lib cfg f k
          · exact ih ks x hx

/-! ## Claim theorems -/

def cfgC1 : Config := ⟨['x'], false, [], [], 4, false⟩

def libC1 : RegexpLib := ⟨fun _ => none⟩

/-- Claim C1, counterexample: when the root itself cannot be accessed
(`lstat` fails), `Search` returns a *nil* error together with zero counts —
not the non-nil terminal error the claim demands.  The walk callback's
`if err != nil return nil` also swallows the root error that `filepath.Walk`
routes through it. -/
theorem claimC1_counterexample :
    Search libC1 cfgC1 FsTree.broken = (0, 0, none) := by rfl

/-- Claim C1, amended: the error result of `Search` is always nil — a
root-access failure is swallowed by the walk callback like any other
traversal error, yielding zero counts with a nil error, and no failure of
any kind makes the returned error non-nil. -/
theorem claimC1 (lib : RegexpLib) (cfg : Config) (root : FsTree) :
    (Search lib cfg root).2.2 = none := by
  rw [search_counts]

def cfgC2 : Config := ⟨['c', 'a', 't'], false, [], [], 4, false⟩

def lineC2 : Str := "cat cat".toList

/-- Claim C2, counterexample: in literal mode a line containing two
non-overlapping occurrences of the keyword ("cat cat", keyword "cat")
increments `matchCount` by 1, not by the number of match spans (2) — the
code's own highlight loop finds both spans, yet `*matchCount++` adds one. -/
theorem claimC2_counterexample :
    literalLineCount cfgC2 lineC2 ≠ (specOccurrences lineC2 cfgC2.keyword).length ∧
    literalLineCount cfgC2 lineC2 = 1 ∧
    (specOccurrences lineC2 cfgC2.keyword).length = 2 ∧
    (literalSpans lineC2 cfgC2.keyword).length = 2 := by decide

/-- Claim C2, amended: only regex mode counts every span on a line —
`matchCount` grows by `len(FindAllStringIndex(line))` there — while literal
mode adds exactly 1 per matching line (`literalLineCount` never exceeds 1),
regardless of how many occurrences the line holds; each scan step adds
exactly that per-line quantity. -/
theorem claimC2 (m : Str → List (Nat × Nat)) (cfg : Config) (line : Str)
    (st : Nat × Bool) :
    regexLineCount m line = (m line).length ∧
    literalLineCount cfg line ≤ 1 ∧
    (scanFold (regexLineCount m) st [line]).1 = st.1 + (m line).length ∧
    (scanFold (literalLineCount cfg) st [line]).1 = st.1 + literalLineCount cfg line := by
  have hreg : regexLineCount m line = (m line).length := by
    unfold regexLineCount
    cases h : m line with
    | nil => simp [h]
    | cons a as => simp [h]
  refine ⟨hreg, ?_, ?_, scanFold_single _ st line⟩
  · simp only [literalLineCount]
    rcases hic : cfg.ignoreCase <;> simp [hic] <;> split <;> omega
  · rw [scanFold_single, hreg]

def cfgC3 : Config := ⟨"hello".toList, false, [], [], 4, false⟩

def lineC3 : Str := "hello Hello".toList

/-- Claim C3, counterexample: with `ignoreCase=false` the match gate is
case-sensitive but the highlight loop still lowercases line and keyword, so
on the line "hello Hello" with keyword "hello" it emits *two* spans
[(0,5),(6,11)] where the claimed case-sensitive occurrence list has exactly
one, [(0,5)]. -/
theorem claimC3_counterexample :
    literalLineSpans cfgC3 lineC3 = some [(0, 5), (6, 11)] ∧
    specOccurrences lineC3 cfgC3.keyword = [(0, 5)] ∧
    literalLineSpans cfgC3 lineC3 ≠ some (specOccurrences lineC3 cfgC3.keyword) := by
  decide

/-- Claim C3, amended: for every line that passes the literal-mode match
gate (under either case-sensitivity setting), the highlighted spans are
exactly the non-overlapping left-to-right occurrences of the keyword under
*case-folded* comparison — the loop lowercases unconditionally — with span
offsets indexing the original line (rune-level): each span has the
keyword's width, ends within the line, and covers a case-insensitive
occurrence of the keyword. -/
theorem claimC3 (cfg : Config) (line : Str) (spans : List (Nat × Nat))
    (hk : cfg.keyword ≠ [])
    (h : literalLineSpans cfg line = some spans) :
    spans = specOccurrences (goToLowerStr line) (goToLowerStr cfg.keyword) ∧
    ∀ se ∈ spans, se.2 = se.1 + cfg.keyword.length ∧ se.2 ≤ line.length ∧
      ((goToLowerStr line).drop se.1).take cfg.keyword.length =
        goToLowerStr cfg.keyword := by
  have hkl : goToLowerStr cfg.keyword ≠ [] := by
    intro h0
    apply hk
    have hlen0 := congrArg List.length h0
    rw [goToLowerStr, List.length_map] at hlen0
    exact List.eq_nil_of_length_eq_zero hlen0
  have hlen : cfg.keyword.length = (goToLowerStr cfg.keyword).length :=
    (List.length_map cfg.keyword goToLowerChar).symm
  have hline : line.length = (goToLowerStr line).length :=
    (List.length_map line goToLowerChar).symm
  have hsp : literalSpans line cfg.keyword = spans := by
    simp only [literalLineSpans] at h
    exact ifSome_inj h
  have htot := literalSpansAux_total (goToLowerStr line) (goToLowerStr cfg.keyword)
    cfg.keyword.length hkl hlen (line.length + 1) 0 (by omega)
    (by rw [← hline])
  rcases Option.isSome_iff_exists.mp htot with ⟨spans0, hs0⟩
  have hspans0 : literalSpans line cfg.keyword = spans0 := by
    unfold literalSpans
    rw [hs0]
    rfl
  have hss : spans = spans0 := by rw [← hsp, hspans0]
  have heq2 : specOccurrences (goToLowerStr line) (goToLowerStr cfg.keyword) = spans0 := by
    unfold specOccurrences
    rw [← hline,
      ← literalSpansAux_eq_specOccsAux (goToLowerStr line) (goToLowerStr cfg.keyword)
        cfg.keyword.length hlen (line.length + 1) 0,
      hs0]
    rfl
  constructor
  · rw [hss, heq2]
  · intro se hse
    rw [hss] at hse
    have hsound := literalSpansAux_sound (goToLowerStr line) (goToLowerStr cfg.keyword)
      cfg.keyword.length hlen hkl (line.length + 1) 0 spans0 hs0 se hse
    exact ⟨hsound.1, by rw [hline]; exact hsound.2.1, hsound.2.2⟩

def cfgC4 : Config := ⟨['('], false, [], [], 4, true⟩

def libC4 : RegexpLib := ⟨fun _ => none⟩

def fileC4 : FileNode := ⟨"a.txt".toList, true, true, ["cat".toList]⟩

def rootC4 : FsTree :=
  FsTree.dir "r".toList true (FsForest.cons (FsTree.file fileC4) FsForest.nil)

/-- Claim C4: with `useRegex` set and a pattern the regexp library rejects,
every file is skipped entirely — it contributes no matches and is not
counted in `fileCount` — no error reaches the caller of `Search`, and each
file in the search is subject to the same per-file skip (the compile is
attempted afresh inside `processFile` for every file). -/
theorem claimC4 (lib : RegexpLib) (cfg : Config) (root : FsTree)
    (hr : cfg.regexp = true)
    (hc : lib.compile (regexPattern cfg) = none) :
    Search lib cfg root = (0, 0, none) ∧
    ∀ f : FileNode, processFile lib cfg f = (0, 0) := by
  have hpf : ∀ f : FileNode, processFile lib cfg f = (0, 0) := by
    intro f
    unfold processFile
    by_cases ho : f.openable = false
    · simp [ho]
    · simp [ho, hr, hc]
  have hall : ∀ files : List FileNode, processAll lib cfg files = (0, 0) := by
    intro files
    unfold processAll
    induction files with
    | nil => rfl
    | cons a as ih =>
        simp only [List.foldl_cons, hpf a, Nat.add_zero]
        exact ih
  refine ⟨?_, hpf⟩
  rw [search_counts, hall]

/-- Claim C4, witness: pattern "(" with regex mode on a directory holding a
non-empty readable file — the search returns zero counts and a nil error,
and the file's own contribution is zero. -/
theorem claimC4_witness :
    cfgC4.regexp = true ∧
    libC4.compile (regexPattern cfgC4) = none ∧
    Search libC4 cfgC4 rootC4 = (0, 0, none) ∧
    processFile libC4 cfgC4 fileC4 = (0, 0) :=
  ⟨rfl, rfl, (claimC4 libC4 cfgC4 rootC4 rfl rfl).1,
    (claimC4 libC4 cfgC4 rootC4 rfl rfl).2 fileC4⟩

/-- Claim C5: `matchCount ≥ fileCount` both in the final result of `Search`
and at every intermediate point — modelled as an arbitrary per-file cut of
each file's line prefix, since both counters are updated together under the
mutex — because a file only raises `fileCount` (by exactly 1) on its first
matching line, which simultaneously adds at least 1 to `matchCount`. -/
theorem claimC5 (lib : RegexpLib) (cfg : Config) (root : FsTree) (cuts : List Nat) :
    (Search lib cfg root).2.1 ≤ (Search lib cfg root).1 ∧
    (midSearchTotals lib cfg (walkedFiles cfg root) cuts).2 ≤
      (midSearchTotals lib cfg (walkedFiles cfg root) cuts).1 := by
  constructor
  · rw [search_counts]
    simp only
    rw [processAll_eq_sum]
    apply pairSum_le
    intro x hx
    rcases List.mem_map.mp hx with ⟨f, _, hf⟩
    rw [← hf]
    exact processFile_le lib cfg f
  · unfold midSearchTotals
    exact foldlPair_le _ (0, 0)
      (fun x hx => zipWith_prefix_le lib cfg (walkedFiles cfg root) cuts x hx)
      (Nat.le_refl 0)

/-- The file list `Search` sees is the walk's collection (the `SkipDir`
conversion at the top only touches the error). -/
theorem goWalkTop_files (cfg : Config) (root : FsTree) :
    (goWalkTop cfg root).1 = (goWalk cfg [] root).1 := by
  unfold goWalkTop
  cases h : (goWalk cfg [] root).2 with
  | none => simp [h]
  | some e => cases e; simp [h]

def cfgC6 : Config := ⟨['x'], false, [], ["vendor".toList], 4, false⟩

def fileC6a : FileNode := ⟨"a.go".toList, true, true, []⟩

def fileC6b : FileNode := ⟨"b.go".toList, true, true, []⟩

def rootC6 : FsTree :=
  FsTree.dir "r".toList true
    (FsForest.cons
      (FsTree.dir "src".toList true (FsForest.cons (FsTree.file fileC6a) FsForest.nil))
      (FsForest.cons
        (FsTree.dir "vendor".toList true (FsForest.cons (FsTree.file fileC6b) FsForest.nil))
        FsForest.nil))

/-- Claim C6: a directory whose base name exactly equals an exclude entry
has its entire subtree pruned — walking such a directory yields no files at
all — and consequently every file the walk pushes has a directory path free
of excluded names, at every nesting depth; the comparison is `=` on base
names by construction of the callback. -/
theorem claimC6 :
    (∀ (cfg : Config) (name : Str) (listable : Bool) (cs : FsForest),
      name ∈ cfg.excludeDirs →
      (goWalkTop cfg (FsTree.dir name listable cs)).1 = []) ∧
    (∀ (cfg : Config) (root : FsTree) (pf : List Str × FileNode),
      pf ∈ (goWalkTop cfg root).1 → ∀ d ∈ pf.1, d ∉ cfg.excludeDirs) := by
  constructor
  · intro cfg name listable cs hx
    rw [goWalkTop_files]
    by_cases hl : listable = false
    · simp [goWalk, hl]
    · simp [goWalk, hl, hx]
  · intro cfg root pf hpf d hd
    rw [goWalkTop_files] at hpf
    exact goWalk_paths cfg [] root (by simp) pf hpf d hd

/-- Claim C6, witness: with exclude list {"vendor"}, the walk of a tree
holding `r/src/a.go` and `r/vendor/b.go` pushes exactly `r/src/a.go`; the
theorem certifies that its path avoids excluded names, and that walking the
`vendor` directory itself yields nothing. -/
theorem claimC6_witness :
    (goWalkTop cfgC6 rootC6).1 = [(["r".toList, "src".toList], fileC6a)] ∧
    (["r".toList, "src".toList], fileC6a) ∈ (goWalkTop cfgC6 rootC6).1 ∧
    "src".toList ∈ ["r".toList, "src".toList] ∧
    ¬ "src".toList ∈ cfgC6.excludeDirs ∧
    (goWalkTop cfgC6
      (FsTree.dir "vendor".toList true
        (FsForest.cons (FsTree.file fileC6b) FsForest.nil))).1 = [] :=
  ⟨by decide, by decide, by decide,
    claimC6.2 cfgC6 rootC6 (["r".toList, "src".toList], fileC6a) (by decide)
      "src".toList (by decide),
    claimC6.1 cfgC6 "vendor".toList true
      (FsForest.cons (FsTree.file fileC6b) FsForest.nil) (by decide)⟩

def cfgC7 : Config := ⟨['x'], false, ["go".toList, "md".toList], [], 4, false⟩

def fileC7go : FileNode := ⟨"a.GO".toList, true, true, []⟩

def fileC7txt : FileNode := ⟨"a.txt".toList, true, true, []⟩

/-- Claim C7: a (statted, non-directory) file is pushed to the work queue
iff it is regular and — whenever the extension allow-list is non-empty —
its lowercased extension, leading dot included, equals `"." +` the
lowercased form of some allow-list entry; with an empty allow-list every
regular file is pushed.  In particular, with allow-list {"go","md"},
`a.GO` is scanned and `a.txt` is not. -/
theorem claimC7 :
    (∀ (cfg : Config) (f : FileNode),
      walkFnFile cfg f = [f] ↔
        (f.regular = true ∧ (cfg.exts = [] ∨ ∃ e ∈ cfg.exts,
          goToLowerStr (goExt f.name) = '.' :: goToLowerStr e))) ∧
    walkFnFile cfgC7 fileC7go = [fileC7go] ∧
    walkFnFile cfgC7 fileC7txt = [] := by
  refine ⟨?_, by decide, by decide⟩
  intro cfg f
  unfold walkFnFile
  by_cases hne : 0 < cfg.exts.length ∧ extAllowed cfg f.name = false
  · rw [if_pos hne]
    constructor
    · intro h; exact absurd h (by simp)
    · rintro ⟨hreg, hor⟩
      rcases hor with hnil | ⟨e, he, hext⟩
      · rw [hnil] at hne; simp at hne
      · have hall : extAllowed cfg f.name = true := by
          simp only [extAllowed, List.any_eq_true]
          exact ⟨e, he, by simp [hext]⟩
        rw [hall] at hne
        simp at hne
  · rw [if_neg hne]
    by_cases hreg : f.regular = true
    · rw [if_pos hreg]
      constructor
      · intro _
        refine ⟨hreg, ?_⟩
        by_cases hl : cfg.exts = []
        · exact Or.inl hl
        · right
          have hlen : 0 < cfg.exts.length := by
            cases hcs : cfg.exts with
            | nil => exact absurd hcs hl
            | cons a as => simp
          have hx : extAllowed cfg f.name ≠ false := fun hf => hne ⟨hlen, hf⟩
          have hall : extAllowed cfg f.name = true := by
            cases hv : extAllowed cfg f.name with
            | false => exact absurd hv hx
            | true => rfl
          simp only [extAllowed, List.any_eq_true] at hall
          rcases hall with ⟨e, he, hdec⟩
          exact ⟨e, he, of_decide_eq_true hdec⟩
      · intro _; rfl
    · rw [if_neg hreg]
      constructor
      · intro h; exact absurd h (by simp)
      · rintro ⟨hreg2, _⟩; exact absurd hreg2 hreg

def cfgC3w : Config := ⟨"hello".toList, true, [], [], 4, false⟩

def lineC3w : Str := "Hello World".toList

mutual
/-- The walk reads only the extension and exclude lists of the
configuration. -/
theorem goWalk_congr (cfg cfg' : Config) (hex : cfg'.exts = cfg.exts)
    (hed : cfg'.excludeDirs = cfg.excludeDirs) (dirs : List Str) :
    ∀ t : FsTree, goWalk cfg' dirs t = goWalk cfg dirs t
  | .broken => rfl
  | .file f => by
      simp only [goWalk]
      have hf : walkFnFile cfg' f = walkFnFile cfg f := by
        unfold walkFnFile extAllowed
        rw [hex]
      rw [hf]
  | .dir name listable cs => by
      simp only [goWalk]
      rw [hed]
      by_cases hl : listable = false
      · simp [hl]
      · simp only [hl, Bool.false_eq_true, if_false]
        by_cases hx : name ∈ cfg.excludeDirs
        · simp [hx]
        · simp only [hx, if_neg, if_false]
          exact goWalkForest_congr cfg cfg' hex hed (dirs ++ [name]) cs

/-- Forest version of `goWalk_congr`. -/
theorem goWalkForest_congr (cfg cfg' : Config) (hex : cfg'.exts = cfg.exts)
    (hed : cfg'.excludeDirs = cfg.excludeDirs) (dirs : List Str) :
    ∀ fs : FsForest, goWalkForest cfg' dirs fs = goWalkForest cfg dirs fs
  | .nil => rfl
  | .cons t ts => by
      simp only [goWalkForest]
      rw [goWalk_congr cfg cfg' hex hed dirs t,
        goWalkForest_congr cfg cfg' hex hed dirs ts]
end

/-- The scanner reads only the keyword, case flag and regex flag. -/
theorem processFile_congr (lib : RegexpLib) (cfg cfg' : Config)
    (hk : cfg'.keyword = cfg.keyword) (hic : cfg'.ignoreCase = cfg.ignoreCase)
    (hrx : cfg'.regexp = cfg.regexp) (f : FileNode) :
    processFile lib cfg' f = processFile lib cfg f := by
  have h1 : regexPattern cfg' = regexPattern cfg := by
    unfold regexPattern
    rw [hk, hic]
  have h2 : literalLineCount cfg' = literalLineCount cfg := by
    funext line
    unfold literalLineCount
    rw [hk, hic]
  unfold processFile
  rw [h1, h2, hrx]

/-- `Search` ignores the configured worker count entirely (it only sizes
the goroutine pool); in particular the returned counts and error are the
same for every worker count. -/
theorem search_workers (lib : RegexpLib) (cfg : Config) (w : Int) (root : FsTree) :
    Search lib
      (Config.mk cfg.keyword cfg.ignoreCase cfg.exts cfg.excludeDirs w cfg.regexp)
      root = Search lib cfg root := by
  have hwalk : goWalkTop
      (Config.mk cfg.keyword cfg.ignoreCase cfg.exts cfg.excludeDirs w cfg.regexp)
      root = goWalkTop cfg root := by
    unfold goWalkTop
    rw [goWalk_congr cfg
      (Config.mk cfg.keyword cfg.ignoreCase cfg.exts cfg.excludeDirs w cfg.regexp)
      rfl rfl [] root]
  have hpa : ∀ files : List FileNode,
      processAll lib
        (Config.mk cfg.keyword cfg.ignoreCase cfg.exts cfg.excludeDirs w cfg.regexp)
        files = processAll lib cfg files := by
    intro files
    unfold processAll
    have hfn : (fun (acc : Nat × Nat) (f : FileNode) =>
        let r := processFile lib
          (Config.mk cfg.keyword cfg.ignoreCase cfg.exts cfg.excludeDirs w cfg.regexp) f
        (acc.1 + r.1, acc.2 + r.2)) =
        (fun (acc : Nat × Nat) (f : FileNode) =>
          let r := processFile lib cfg f
          (acc.1 + r.1, acc.2 + r.2)) := by
      funext acc f
      rw [processFile_congr lib cfg
        (Config.mk cfg.keyword cfg.ignoreCase cfg.exts cfg.excludeDirs w cfg.regexp)
        rfl rfl rfl f]
    rw [hfn]
  simp only [Search, hwalk, hpa]

def cfgC8 : Config := ⟨['a'], false, [], [], 4, false⟩

def libC8 : RegexpLib := ⟨fun _ => none⟩

def fileC8a : FileNode := ⟨"a.txt".toList, true, true, ["ha".toList]⟩

def fileC8b : FileNode := ⟨"b.txt".toList, true, true, ["xyz".toList, "aa a".toList]⟩

def rootC8 : FsTree :=
  FsTree.dir "r".toList true
    (FsForest.cons (FsTree.file fileC8a)
      (FsForest.cons (FsTree.file fileC8b) FsForest.nil))

/-- Claim C8: the final counts do not depend on how the walked files are
split among workers — any partition of the file list (in any order) folds
to the same totals as the single-worker sequential run, because each file's
contribution is independent of shared state and the mutex-guarded folds
just sum them — and the counts are independent of the configured worker
count. -/
theorem claimC8 (lib : RegexpLib) (cfg : Config) (root : FsTree)
    (parts : List (List FileNode)) (w : Int)
    (hperm : parts.flatten.Perm (walkedFiles cfg root)) :
    workerTotals lib cfg parts =
      ((Search lib cfg root).1, (Search lib cfg root).2.1) ∧
    Search lib
      (Config.mk cfg.keyword cfg.ignoreCase cfg.exts cfg.excludeDirs w cfg.regexp)
      root = Search lib cfg root := by
  constructor
  · have hmap : ∀ ps : List (List FileNode), ps.map (processAll lib cfg) =
        (ps.map (List.map (processFile lib cfg))).map List.sum := by
      intro ps
      induction ps with
      | nil => rfl
      | cons p qs ih => simp only [List.map_cons, ih, processAll_eq_sum]
    have h1 : workerTotals lib cfg parts =
        (parts.flatten.map (processFile lib cfg)).sum := by
      unfold workerTotals
      rw [foldlPair_zero, hmap, ← List.sum_flatten, ← List.map_flatten]
    have h2 : (parts.flatten.map (processFile lib cfg)).sum =
        ((walkedFiles cfg root).map (processFile lib cfg)).sum :=
      (List.Perm.map (processFile lib cfg) hperm).sum_eq
    rw [h1, h2, ← processAll_eq_sum, search_counts]
  · exact search_workers lib cfg w root

/-- Claim C8, witness: two files split across two workers in reversed
order fold to the same totals as the sequential search, and setting the
worker count to 1 leaves the result unchanged. -/
theorem claimC8_witness :
    ([[fileC8b], [fileC8a]] : List (List FileNode)).flatten.Perm
      (walkedFiles cfgC8 rootC8) ∧
    (workerTotals libC8 cfgC8 [[fileC8b], [fileC8a]] =
      ((Search libC8 cfgC8 rootC8).1, (Search libC8 cfgC8 rootC8).2.1) ∧
    Search libC8
      (Config.mk cfgC8.keyword cfgC8.ignoreCase cfgC8.exts cfgC8.excludeDirs 1
        cfgC8.regexp)
      rootC8 = Search libC8 cfgC8 rootC8) :=
  ⟨by decide, claimC8 libC8 cfgC8 rootC8 [[fileC8b], [fileC8a]] 1 (by decide)⟩

def lineC9 : List Nat := [0x23A, 0x23A, 0x23A, 0x61, 0x62]

def keywordC9 : List Nat := [0x61, 0x62]

/-- Claim C9: the literal highlight loop's slices are NOT always in bounds.
The line "ȺȺȺab" (three U+023A, whose lowercase U+2C65 is one UTF-8 byte
longer) with keyword "ab" under `ignoreCase=true` passes the
`strings.Contains` gate, the lowered line is 11 bytes while the original is
8, the search finds the keyword at byte offset 9 of the lowered line, and
the slice `line[start:absIdx]` = `line[0:9]` is out of range — a panic,
where the claim asserts none can occur. -/
theorem claimC9 :
    strContains (goToLowerBytes lineC9) (goToLowerBytes keywordC9) = true ∧
    (encodeRunes lineC9).length = 8 ∧
    (goToLowerBytes lineC9).length = 11 ∧
    strIndex (goToLowerBytes lineC9) (goToLowerBytes keywordC9) = some 9 ∧
    highlightBytes lineC9 keywordC9 = HlRes.oob := by decide

/-- Claim C10: with a non-empty keyword the literal highlight loop
terminates — fuel equal to the line length plus one is always sufficient,
because each found occurrence advances the cursor by the keyword's length,
at least 1 — and `literalSpans` is the value it terminates with. -/
theorem claimC10 (line keyword : Str) (hk : keyword ≠ []) :
    ∃ spans, literalSpansAux (goToLowerStr line) (goToLowerStr keyword)
        keyword.length 0 (line.length + 1) = some spans ∧
      literalSpans line keyword = spans := by
  have hkl : goToLowerStr keyword ≠ [] := by
    intro h0
    apply hk
    have hlen0 := congrArg List.length h0
    rw [goToLowerStr, List.length_map] at hlen0
    exact List.eq_nil_of_length_eq_zero hlen0
  have hlen : keyword.length = (goToLowerStr keyword).length :=
    (List.length_map keyword goToLowerChar).symm
  have hline : line.length = (goToLowerStr line).length :=
    (List.length_map line goToLowerChar).symm
  have htot := literalSpansAux_total (goToLowerStr line) (goToLowerStr keyword)
    keyword.length hkl hlen (line.length + 1) 0 (by omega) (by rw [← hline])
  rcases Option.isSome_iff_exists.mp htot with ⟨spans, hs⟩
  refine ⟨spans, hs, ?_⟩
  unfold literalSpans
  rw [hs]
  rfl

/-- Claim C10, witness: keyword "ab" on line "xAbab" — the loop finishes
within the fuel bound and yields the spans `literalSpans` reports. -/
theorem claimC10_witness :
    ("ab".toList ≠ ([] : Str)) ∧
    ∃ spans, literalSpansAux (goToLowerStr "xAbab".toList)
        (goToLowerStr "ab".toList) "ab".toList.length 0
        ("xAbab".toList.length + 1) = some spans ∧
      literalSpans "xAbab".toList "ab".toList = spans :=
  ⟨by decide, claimC10 "xAbab".toList "ab".toList (by decide)⟩

/-- Claim C3, witness: line "Hello World", keyword "hello", ignoreCase=true
passes the gate with exactly the span [0,5), which the amended theorem
certifies as the case-insensitive occurrence list with original-line
offsets. -/
theorem claimC3_witness :
    cfgC3w.keyword ≠ ([] : Str) ∧
    literalLineSpans cfgC3w lineC3w = some [(0, 5)] ∧
    ([((0 : Nat), (5 : Nat))] =
        specOccurrences (goToLowerStr lineC3w) (goToLowerStr cfgC3w.keyword) ∧
      ∀ se ∈ [((0 : Nat), (5 : Nat))], se.2 = se.1 + cfgC3w.keyword.length ∧
        se.2 ≤ lineC3w.length ∧
        ((goToLowerStr lineC3w).drop se.1).take cfgC3w.keyword.length =
          goToLowerStr cfgC3w.keyword) :=
  ⟨by decide, by decide, claimC3 cfgC3w lineC3w [(0, 5)] (by decide) (by decide)⟩

end FFind
